import Mathlib

/-!
Shallow embedding of `src/zero_copy/input.rs` (chumsky zero-copy input layer):
the `Input` cursor implementations for `&str`, `&[T]` and `Stream<I>`, the
`WithContext` wrapper, and the `InputRef` parsing session with its
`save`/`rewind`/`emit`/`with_ctx`/`skip_while` operations.

Modelling conventions:
* Rust `usize` offsets are `Nat` (no overflow is reachable in the claims).
* A `&str` is a `List Char`; byte offsets are sums of `Char.utf8Size`.
* A slice `&[T]` is a `List τ`; references are modelled by values, so
  `Clone::clone` (and `Option::cloned`) is the identity function `clone`.
* The `Stream` iterator is modelled as the list of items it has yet to yield;
  `Iterator::take(500)` followed by `extend` becomes `List.take 500` /
  `List.drop 500`.  The `Cell` swap dance is interior mutability only, so the
  embedding is explicit state passing: `next` returns the updated stream state.
* `InputRef` is the `Sess` structure; `&mut E::State` sharing is modelled by
  threading the state value in and out of sub-sessions.
-/

namespace ChumskyInput

/-- Rust `Clone::clone` in a value semantics: the identity copy. -/
def clone {τ : Type} (t : τ) : τ := t

/-! ### `impl Input for &str` -/

/-- Total byte length of a string, `str::len`: the sum of the UTF-8 sizes of
its scalar values. -/
def byteLen (s : List Char) : Nat := (s.map Char.utf8Size).sum

/-- Model of `self.get_unchecked(offset..).chars().next()`: the scalar value starting at
byte offset `off`. On a non-boundary offset the Rust code is UB; the model then
returns whatever falls out of truncated subtraction (possibly `none`). -/
def strCharAt : List Char → Nat → Option Char
  | [], _ => none
  | c :: cs, off => if off = 0 then some c else strCharAt cs (off - c.utf8Size)

/-- Model of `<&str as Input>::next`: if `offset < self.len()`, decode the scalar `c` at
`offset` and return `(offset + c.len_utf8(), Some(c))`, else `(offset, None)`. -/
def strNext (s : List Char) (off : Nat) : Nat × Option Char :=
  if off < byteLen s then
    match strCharAt s off with
    | some c => (off + c.utf8Size, some c)
    | none => (off, none)
  else (off, none)

/-! ### `impl BorrowInput for &[T]` and `impl Input for &[T]` -/

/-- Model of `<&[T] as BorrowInput>::next_ref`: index the slice at `offset`; in bounds
return `(offset + 1, Some(tok))`, out of bounds return `(offset, None)`. -/
def sliceNextRef {τ : Type} (s : List τ) (off : Nat) : Nat × Option τ :=
  match s[off]? with
  | some tok => (off + 1, some tok)
  | none => (off, none)

/-- Model of `<&[T] as Input>::next`: delegate to `next_ref` and clone the token. -/
def sliceNext {τ : Type} (s : List τ) (off : Nat) : Nat × Option τ :=
  let p := sliceNextRef s off
  (p.1, p.2.map clone)

/-! ### `impl Input for &Stream<I>` -/

/-- The interior state of `Stream<I>`: the grown buffer `Vec<I::Item>` and the
residual iterator, modelled as the list of items it has yet to yield. -/
structure StreamState (τ : Type) where
  buf : List τ
  src : List τ
deriving DecidableEq, Repr

/-- Model of `<&Stream<I> as Input>::next`: if `vec.len() < offset`, extend the buffer
with `iter.take(500)`; then answer `(offset + 1, vec.get(offset).cloned())`.
The `Cell` swap is explicit state passing here, so the updated stream state is
returned alongside the result. -/
def streamNext {τ : Type} (st : StreamState τ) (off : Nat) :
    StreamState τ × (Nat × Option τ) :=
  let st' := if st.buf.length < off then
    { buf := st.buf ++ st.src.take 500, src := st.src.drop 500 }
  else st
  let tok := st'.buf[off]?.map clone
  (st', (off + 1, tok))

/-! ### Repeated advances (for the end-of-input idempotence properties) -/

/-- Result of the `(n+1)`-th advance of a pure cursor `nxt`, starting at `off`
and feeding each returned offset into the next call. -/
def nextN {τ : Type} (nxt : Nat → Nat × Option τ) : Nat → Nat → Nat × Option τ
  | 0, off => nxt off
  | n + 1, off => nextN nxt n (nxt off).1

/-- Result of the `(n+1)`-th advance of the stream cursor, threading the stream
state through. -/
def streamNextN {τ : Type} : Nat → StreamState τ → Nat → StreamState τ × (Nat × Option τ)
  | 0, st, off => streamNext st off
  | n + 1, st, off =>
    let r := streamNext st off
    streamNextN n r.1 r.2.1

/-! ### The `Input` capability record and `WithContext<Ctx, I>` -/

/-- A pure cursor as a record of the `Input` trait's methods: `start`, `next`
and `span` (ranges as pairs of offsets). `reborrow` for these value cursors is
the identity copy. -/
structure InputShape (τ σp : Type) where
  start : Nat
  next : Nat → Nat × Option τ
  span : Nat × Nat → σp

/-- Model of `impl Input for WithContext<Ctx, I>`: `start`/`next` delegate to the inner
input; `span(range)` is `(self.0.clone(), self.1.span(range))`. -/
def withContext {κ τ σp : Type} (ctx : κ) (inner : InputShape τ σp) :
    InputShape τ (κ × σp) where
  start := inner.start
  next := fun off => inner.next off
  span := fun range => (clone ctx, inner.span range)

/-! ### `Marker` and `InputRef` (the parsing session) -/

/-- Model of `Marker`: the progress snapshot `(offset, err_count)`. -/
structure Marker where
  offset : Nat
  err_count : Nat
deriving DecidableEq, Repr

/-- Model of `InputRef<I, E>` restricted to the fields the session operations touch:
current offset, accumulated error buffer, context value and user state. The
cursor itself is passed separately (it is reborrowed, i.e. shared, between a
session and its sub-sessions). -/
structure Sess (ε κ σ : Type) where
  offset : Nat
  errors : List ε
  ctx : κ
  state : σ
deriving DecidableEq, Repr

namespace Sess

/-- Model of `InputRef::save`: snapshot the offset and error count. -/
def save {ε κ σ : Type} (s : Sess ε κ σ) : Marker :=
  { offset := s.offset, err_count := s.errors.length }

/-- Model of `InputRef::rewind`: truncate the error buffer to `marker.err_count` and
restore `marker.offset`. -/
def rewind {ε κ σ : Type} (s : Sess ε κ σ) (m : Marker) : Sess ε κ σ :=
  { s with errors := s.errors.take m.err_count, offset := m.offset }

/-- Model of `InputRef::emit`: push an error onto the buffer. -/
def emit {ε κ σ : Type} (s : Sess ε κ σ) (e : ε) : Sess ε κ σ :=
  { s with errors := s.errors ++ [e] }

/-- Model of `InputRef::next` on a pure cursor `nxt`: advance once and store the new
offset. -/
def next {ε κ σ τ : Type} (nxt : Nat → Nat × Option τ) (s : Sess ε κ σ) :
    Sess ε κ σ × Option τ :=
  let r := nxt s.offset
  ({ s with offset := r.1 }, r.2)

/-- Model of `InputRef::with_ctx`: build a sub-session at the same offset, carrying
`newCtx`, with `errors := mem::take(&mut self.errors)` (the parent's buffer is
moved in, leaving the parent's empty) and the parent's state (shared `&mut`,
modelled by threading the value). Run the body, then copy the sub-session's
final offset and error buffer back into the parent; the sub-context is
dropped and the parent's own context is untouched. -/
def withCtx {ε κ σ κ' α : Type} (s : Sess ε κ σ) (newCtx : κ')
    (f : Sess ε κ' σ → Sess ε κ' σ × α) : Sess ε κ σ × α :=
  let sub : Sess ε κ' σ :=
    { offset := s.offset, errors := s.errors, ctx := newCtx, state := s.state }
  let r := f sub
  ({ offset := r.1.offset, errors := r.1.errors, ctx := s.ctx, state := r.1.state },
   r.2)

end Sess

/-! ### Programs over a session: arbitrary sequences of advances, emits and
nested `with_ctx` calls, used to state the backtracking and nesting claims. -/

/-- A straight-line session script: advances (through the shared cursor whose
offset action is `g`), error emissions, and context-scoped sub-parses of
arbitrary nesting depth. -/
inductive Prog (ε κ : Type) where
  | done : Prog ε κ
  | advance : Prog ε κ → Prog ε κ
  | emitOp : ε → Prog ε κ → Prog ε κ
  | withCtxOp : κ → Prog ε κ → Prog ε κ → Prog ε κ
deriving DecidableEq, Repr

/-- Run a script against a session. `advance` performs `InputRef::next` on the
shared cursor (offset action `g`), `emitOp` performs `InputRef::emit`, and
`withCtxOp c body rest` performs `InputRef::with_ctx` with the sub-context `c`
running `body` in the sub-session. -/
def execProg {ε κ σ : Type} (g : Nat → Nat) : Prog ε κ → Sess ε κ σ → Sess ε κ σ
  | .done, s => s
  | .advance p, s => execProg g p { s with offset := g s.offset }
  | .emitOp e p, s => execProg g p (s.emit e)
  | .withCtxOp c body p, s =>
    execProg g p (s.withCtx c (fun sub => (execProg g body sub, ()))).1

/-- All errors a script emits, in emission order, each occurrence listed
exactly once (nested `with_ctx` bodies included). -/
def emittedErrs {ε κ : Type} : Prog ε κ → List ε
  | .done => []
  | .advance p => emittedErrs p
  | .emitOp e p => e :: emittedErrs p
  | .withCtxOp _ body p => emittedErrs body ++ emittedErrs p

/-- The offset obtained by folding the cursor's offset action `g` over every
advance a script performs, in order, nested bodies included. -/
def progOffset {ε κ : Type} (g : Nat → Nat) : Prog ε κ → Nat → Nat
  | .done, o => o
  | .advance p, o => progOffset g p (g o)
  | .emitOp _ p, o => progOffset g p o
  | .withCtxOp _ body p, o => progOffset g p (progOffset g body o)

/-! ### `InputRef::skip_while` -/

/-- The loop body of `InputRef::skip_while`, with explicit structural fuel:
call `next(offs)`; if the token, filtered through `f`, is `none`, stop and
answer `offs`; otherwise continue from the returned offset. `skipWhile` below
always supplies enough fuel for the loop to reach its exit condition, so the
fuel-0 branch is never the reason an answer is returned. -/
def skipWhileAux {τ : Type} (nxt : Nat → Nat × Option τ) (f : τ → Bool) :
    Nat → Nat → Nat
  | 0, offs => offs
  | fuel + 1, offs =>
    match nxt offs with
    | (offset, some tok) => if f tok then skipWhileAux nxt f fuel offset else offs
    | (_, none) => offs

/-- A pure cursor together with the two facts every provided list-backed input
satisfies and that the `skip_while` loop's termination rests on: past the bound
the cursor yields no token, and yielding a token strictly advances the offset. -/
structure Cursor (τ : Type) where
  next : Nat → Nat × Option τ
  bound : Nat
  next_none : ∀ off, bound ≤ off → (next off).2 = none
  next_progress : ∀ off t, (next off).2 = some t → off < (next off).1

/-- Model of `InputRef::skip_while` over a cursor: loop from the current offset,
advancing while the predicate holds; the session's offset becomes the answer. -/
def skipWhile {τ : Type} (c : Cursor τ) (f : τ → Bool) (off : Nat) : Nat :=
  skipWhileAux c.next f (c.bound + 1 - off) off

/-- The offsets reachable from `off` by advancing only through tokens that
satisfy `f`: the positions `skip_while` may visit. -/
inductive SkipReach {τ : Type} (c : Cursor τ) (f : τ → Bool) : Nat → Nat → Prop
  | refl (off : Nat) : SkipReach c f off off
  | step (off o : Nat) (t : τ) : (c.next off).2 = some t → f t = true →
      SkipReach c f (c.next off).1 o → SkipReach c f off o

/-! ### Helper lemmas -/

lemma byteLen_nil : byteLen [] = 0 := rfl

lemma byteLen_cons (c : Char) (s : List Char) :
    byteLen (c :: s) = c.utf8Size + byteLen s := by
  simp [byteLen]

lemma byteLen_take_lt (s : List Char) (i : Nat) (h : i < s.length) :
    byteLen (s.take i) < byteLen s := by
  induction s generalizing i with
  | nil => simp at h
  | cons c cs ih =>
    cases i with
    | zero =>
      have hp := Char.utf8Size_pos c
      simp only [List.take_zero, byteLen_nil, byteLen_cons]
      omega
    | succ i =>
      have hlt : i < cs.length := by simpa using h
      have := ih i hlt
      simp only [List.take_succ_cons, byteLen_cons]
      omega

lemma strCharAt_byteLen_take (s : List Char) (i : Nat) (h : i < s.length) :
    strCharAt s (byteLen (s.take i)) = some (s.get ⟨i, h⟩) := by
  induction s generalizing i with
  | nil => simp at h
  | cons c cs ih =>
    cases i with
    | zero => simp [strCharAt, byteLen_nil]
    | succ i =>
      have hlt : i < cs.length := by simpa using h
      have hp := Char.utf8Size_pos c
      simp only [List.take_succ_cons, byteLen_cons, strCharAt, List.get_cons_succ]
      rw [if_neg (by omega)]
      have hsub : c.utf8Size + byteLen (cs.take i) - c.utf8Size = byteLen (cs.take i) := by
        omega
      rw [hsub]
      exact ih i hlt

lemma strNext_valid (s : List Char) (i : Nat) (h : i < s.length) :
    strNext s (byteLen (s.take i)) =
      (byteLen (s.take i) + (s.get ⟨i, h⟩).utf8Size, some (s.get ⟨i, h⟩)) := by
  unfold strNext
  rw [if_pos (byteLen_take_lt s i h), strCharAt_byteLen_take s i h]

lemma strNext_eof (s : List Char) (off : Nat) (h : byteLen s ≤ off) :
    strNext s off = (off, none) := by
  unfold strNext
  rw [if_neg (by omega)]

lemma sliceNext_eof {τ : Type} (s : List τ) (off : Nat) (h : s.length ≤ off) :
    sliceNext s off = (off, none) := by
  have : s[off]? = none := by
    rw [List.getElem?_eq_none_iff]
    exact h
  simp [sliceNext, sliceNextRef, this]

lemma streamNext_exhausted {τ : Type} (buf : List τ) (off : Nat)
    (h : buf.length ≤ off) :
    streamNext ⟨buf, []⟩ off = (⟨buf, []⟩, (off + 1, none)) := by
  have hget : buf[off]? = none := by
    rw [List.getElem?_eq_none_iff]
    exact h
  unfold streamNext
  by_cases hlt : buf.length < off <;>
    simp [hlt, hget]

lemma map_clone {τ : Type} (x : Option τ) : x.map clone = x := by
  cases x <;> rfl

lemma nextN_fixpoint {τ : Type} (nxt : Nat → Nat × Option τ) (off : Nat)
    (h : nxt off = (off, none)) : ∀ n, nextN nxt n off = (off, none) := by
  intro n
  induction n with
  | zero => exact h
  | succ n ih =>
    rw [nextN, h]
    exact ih

lemma execProg_eq {ε κ σ : Type} (g : Nat → Nat) (p : Prog ε κ) (s : Sess ε κ σ) :
    execProg g p s =
      { offset := progOffset g p s.offset, errors := s.errors ++ emittedErrs p,
        ctx := s.ctx, state := s.state } := by
  induction p generalizing s with
  | done => simp [execProg, progOffset, emittedErrs]
  | advance p ih => simp [execProg, progOffset, emittedErrs, ih]
  | emitOp e p ih =>
    simp [execProg, progOffset, emittedErrs, ih, Sess.emit]
  | withCtxOp c body p ihBody ih =>
    simp [execProg, progOffset, emittedErrs, Sess.withCtx, ihBody, ih]

lemma skipWhileAux_eq_none {τ : Type} (nxt : Nat → Nat × Option τ) (f : τ → Bool)
    (fuel off off' : Nat) (hn : nxt off = (off', none)) :
    skipWhileAux nxt f (fuel + 1) off = off := by
  rw [skipWhileAux, hn]

lemma skipWhileAux_eq_some {τ : Type} (nxt : Nat → Nat × Option τ) (f : τ → Bool)
    (fuel off off' : Nat) (t : τ) (hn : nxt off = (off', some t)) :
    skipWhileAux nxt f (fuel + 1) off =
      if f t then skipWhileAux nxt f fuel off' else off := by
  rw [skipWhileAux, hn]

lemma skipWhileAux_spec {τ : Type} (c : Cursor τ) (f : τ → Bool) :
    ∀ (fuel off : Nat), c.bound + 1 - off ≤ fuel →
      SkipReach c f off (skipWhileAux c.next f fuel off) ∧
        (∀ t, (c.next (skipWhileAux c.next f fuel off)).2 = some t → f t = false) := by
  intro fuel
  induction fuel with
  | zero =>
    intro off hfuel
    have hb : c.bound ≤ off := by omega
    have hnone := c.next_none off hb
    refine ⟨SkipReach.refl off, ?_⟩
    intro t ht
    rw [skipWhileAux] at ht
    rw [hnone] at ht
    exact absurd ht (by simp)
  | succ fuel ih =>
    intro off hfuel
    rcases hn : c.next off with ⟨off', tok⟩
    cases tok with
    | none =>
      rw [skipWhileAux_eq_none c.next f fuel off off' hn]
      refine ⟨SkipReach.refl off, ?_⟩
      intro t ht
      rw [hn] at ht
      exact absurd ht (by simp)
    | some t =>
      rw [skipWhileAux_eq_some c.next f fuel off off' t hn]
      by_cases hf : f t
      · rw [if_pos hf]
        have htok : (c.next off).2 = some t := by rw [hn]
        have hprog : off < (c.next off).1 := c.next_progress off t htok
        have hoff' : (c.next off).1 = off' := by rw [hn]
        have hlt2 : off < off' := by
          rw [hoff'] at hprog
          exact hprog
        have hb : off < c.bound := by
          by_contra hcon
          have := c.next_none off (by omega)
          rw [htok] at this
          exact absurd this (by simp)
        have hfuel' : c.bound + 1 - off' ≤ fuel := by omega
        have hrec := ih off' hfuel'
        refine ⟨SkipReach.step off _ t htok hf ?_, hrec.2⟩
        rw [hoff']
        exact hrec.1
      · rw [if_neg hf]
        refine ⟨SkipReach.refl off, ?_⟩
        intro t' ht'
        rw [hn] at ht'
        have heq : t' = t := by simpa using ht'.symm
        subst heq
        simpa using hf

/-- The cursor record of the slice input `&[T]`: its end-of-input bound is the
slice length, and a successful advance moves from `off` to `off + 1`. -/
def sliceCursor {τ : Type} (s : List τ) : Cursor τ where
  next := sliceNext s
  bound := s.length
  next_none := fun off h => by
    rw [sliceNext_eof s off h]
  next_progress := fun off t h => by
    unfold sliceNext sliceNextRef at h ⊢
    rcases hg : s[off]? with _ | tok <;> simp [hg] at h ⊢

/-- The cursor record of the text input `&str`: its end-of-input bound is the
string's byte length, and a successful advance moves forward by the scalar's
UTF-8 size, which is positive. -/
def strCursor (s : List Char) : Cursor Char where
  next := strNext s
  bound := byteLen s
  next_none := fun off h => by
    rw [strNext_eof s off h]
  next_progress := fun off t h => by
    unfold strNext at h ⊢
    by_cases hlt : off < byteLen s
    · rw [if_pos hlt] at h ⊢
      rcases hc : strCharAt s off with _ | c
      · simp [hc] at h
      · have := Char.utf8Size_pos c
        simp [hc]
        omega
    · rw [if_neg hlt] at h
      simp at h

/-! ### Claim theorems -/

/-- C10: rewind is idempotent: for every session and every marker (including
one whose error count exceeds the current error-buffer length), rewinding
twice in succession leaves the session in exactly the same state (offset and
error buffer) as rewinding once. -/
theorem rewind_idempotent {ε κ σ : Type} (s : Sess ε κ σ) (m : Marker) :
    (s.rewind m).rewind m = s.rewind m := by
  simp [Sess.rewind, List.take_take]

/-- C9: the context-augmenting wrapper delegates `start` and `next` (advance)
to the inner cursor unchanged, and `span(range)` returns the pair
`(context.clone(), inner.span(range))`. -/
theorem with_context_delegates {κ τ σp : Type} (ctx : κ) (inner : InputShape τ σp)
    (off : Nat) (range : Nat × Nat) :
    (withContext ctx inner).start = inner.start
    ∧ (withContext ctx inner).next off = inner.next off
    ∧ (withContext ctx inner).span range = (clone ctx, inner.span range) :=
  ⟨rfl, rfl, rfl⟩

/-- C8: for an array cursor, at every offset the owned-copy advance and the
borrow-based advance agree: same next offset, positionally equal tokens, and
both report `none` at exactly the offsets at or past the slice length. -/
theorem slice_borrow_owned_equiv {τ : Type} (s : List τ) (off : Nat) :
    sliceNext s off = sliceNextRef s off
    ∧ ((sliceNext s off).2 = none ↔ s.length ≤ off)
    ∧ ((sliceNextRef s off).2 = none ↔ s.length ≤ off) := by
  rcases hg : s[off]? with _ | t
  · have hlen : s.length ≤ off := List.getElem?_eq_none_iff.mp hg
    simp [sliceNext, sliceNextRef, hg, hlen, clone]
  · have hlen : off < s.length := by
      by_contra hc
      rw [List.getElem?_eq_none_iff.mpr (by omega)] at hg
      exact absurd hg (by simp)
    simp [sliceNext, sliceNextRef, hg, clone]
    omega

/-- C2 (amended): the sub-session built by `with_ctx` begins its body with the
parent's accumulated error buffer moved into it (not an empty buffer: the
parent's buffer is emptied for the duration) together with the replacement
context value and the parent's offset and shared state; on exit the
sub-session's final offset and error buffer replace the parent's, and the
sub-context is discarded, leaving the parent's own context unchanged. -/
theorem with_ctx_error_flow {ε κ σ κ' α : Type} (s : Sess ε κ σ) (c : κ')
    (f : Sess ε κ' σ → Sess ε κ' σ × α) :
    (Sess.withCtx s c f).1.offset =
        (f { offset := s.offset, errors := s.errors, ctx := c, state := s.state }).1.offset
    ∧ (Sess.withCtx s c f).1.errors =
        (f { offset := s.offset, errors := s.errors, ctx := c, state := s.state }).1.errors
    ∧ (Sess.withCtx s c f).1.ctx = s.ctx
    ∧ (Sess.withCtx s c f).2 =
        (f { offset := s.offset, errors := s.errors, ctx := c, state := s.state }).2 :=
  ⟨rfl, rfl, rfl, rfl⟩

/-- C2 counterexample: a parent session whose error buffer holds one error
hands a sub-session whose buffer already holds that error to the body of
`with_ctx` — the body does not begin with an empty error buffer. -/
theorem with_ctx_starts_nonempty_cex :
    ((Sess.withCtx (⟨0, [7], (), ()⟩ : Sess Nat Unit Unit) ()
        (fun sub => (sub, sub.errors))).2 = [7]) ∧ ([7] : List Nat) ≠ [] := by
  constructor
  · rfl
  · decide

/-- C4: for every session, after `m = save()` followed by any sequence of
advances, emits and nested context calls, `rewind(m)` makes the offset equal
`m.offset` and truncates the error buffer to exactly `m.err_count` entries,
keeping the original prefix; in particular `emit e1; m = save; emit e2;
rewind m` leaves the error buffer at `[e1]`. -/
theorem save_rewind_exact :
    (∀ (ε κ σ : Type) (g : Nat → Nat) (p : Prog ε κ) (s : Sess ε κ σ),
      ((execProg g p s).rewind s.save).offset = s.save.offset
      ∧ ((execProg g p s).rewind s.save).errors.length = s.save.err_count
      ∧ ((execProg g p s).rewind s.save).errors = s.errors)
    ∧ (((((⟨0, [], (), ()⟩ : Sess Nat Unit Unit).emit 1).emit 2).rewind
          (((⟨0, [], (), ()⟩ : Sess Nat Unit Unit).emit 1).save)).errors = [1]) := by
  constructor
  · intro ε κ σ g p s
    rw [execProg_eq]
    simp [Sess.rewind, Sess.save, List.take_left]
  · decide

/-- C5: for an arbitrarily deep chain of nested `with_ctx` calls (any script
of advances, emits and nested context-scoped sub-parses), every emitted error
appears exactly once, in order, in the outermost session's final error buffer
(witnessed by the exact count of every error value), the outer session's
context value is unchanged, and the outer session's offset reflects all
advances performed anywhere in the chain, innermost bodies included. -/
theorem with_ctx_nesting {ε κ σ : Type} [DecidableEq ε] (g : Nat → Nat)
    (p : Prog ε κ) (s : Sess ε κ σ) :
    (execProg g p s).errors = s.errors ++ emittedErrs p
    ∧ (∀ e : ε, (execProg g p s).errors.count e
        = s.errors.count e + (emittedErrs p).count e)
    ∧ (execProg g p s).ctx = s.ctx
    ∧ (execProg g p s).offset = progOffset g p s.offset := by
  rw [execProg_eq]
  refine ⟨rfl, ?_, rfl, rfl⟩
  intro e
  simp [List.count_append]

/-- C1 (amended): for the text and array cursors, advancing at or past
end-of-input returns no token and leaves the offset unchanged, for any number
of repeated advances; the buffered stream also returns no token once its
source is exhausted and the offset is at or past the buffer end, but it
increments the returned offset by one on every advance instead of leaving it
unchanged. -/
theorem eof_advance_idempotent :
    (∀ (s : List Char) (off : Nat), byteLen s ≤ off →
        ∀ n : Nat, nextN (strNext s) n off = (off, none))
    ∧ (∀ (τ : Type) (s : List τ) (off : Nat), s.length ≤ off →
        ∀ n : Nat, nextN (sliceNext s) n off = (off, none))
    ∧ (∀ (τ : Type) (buf : List τ) (n off : Nat), buf.length ≤ off →
        streamNextN n (⟨buf, []⟩ : StreamState τ) off
          = (⟨buf, []⟩, (off + n + 1, none))) := by
  refine ⟨?_, ?_, ?_⟩
  · intro s off h n
    exact nextN_fixpoint (strNext s) off (strNext_eof s off h) n
  · intro τ s off h n
    exact nextN_fixpoint (sliceNext s) off (sliceNext_eof s off h) n
  · intro τ buf n
    induction n with
    | zero =>
      intro off h
      simpa using streamNext_exhausted buf off h
    | succ n ih =>
      intro off h
      calc streamNextN (n + 1) (⟨buf, []⟩ : StreamState τ) off
          = streamNextN n (streamNext (⟨buf, []⟩ : StreamState τ) off).1
              (streamNext (⟨buf, []⟩ : StreamState τ) off).2.1 := rfl
        _ = streamNextN n (⟨buf, []⟩ : StreamState τ) (off + 1) := by
            rw [streamNext_exhausted buf off h]
        _ = (⟨buf, []⟩, (off + 1 + n + 1, none)) := ih (off + 1) (by omega)
        _ = (⟨buf, []⟩, (off + (n + 1) + 1, none)) := by
            have harith : off + 1 + n + 1 = off + (n + 1) + 1 := by omega
            rw [harith]

/-- C1 counterexample: the buffered stream, advanced at end-of-input (empty
buffer, exhausted source) at offset 0, returns no token but moves the returned
offset to 1 — the offset is not left unchanged. -/
theorem stream_eof_moves_offset_cex :
    streamNext (⟨[], []⟩ : StreamState Nat) 0 = (⟨[], []⟩, (1, none))
    ∧ (1 : Nat) ≠ 0 := by
  exact ⟨rfl, by decide⟩

/-- Witness for the amended C1 theorem at concrete inputs. -/
theorem eof_advance_idempotent_witness :
    nextN (strNext ['a']) 2 5 = (5, none)
    ∧ nextN (sliceNext [true]) 1 3 = (3, none)
    ∧ streamNextN 2 (⟨[7], []⟩ : StreamState Nat) 4 = (⟨[7], []⟩, (7, none)) := by
  refine ⟨eof_advance_idempotent.1 ['a'] 5 (by decide) 2,
          eof_advance_idempotent.2.1 Bool [true] 3 (by decide) 1, ?_⟩
  have h := eof_advance_idempotent.2.2 Nat [7] 2 4 (by decide)
  simpa using h

/-- C3 (amended): the buffered stream's advance pulls exactly one bounded batch
(at most 500 items) from the source if and only if the buffer holds fewer than
`offset` entries (not `offset + 1`), and then returns `(offset + 1, entry)`
where `entry` is the cloned buffered entry at `offset` if it exists after the
conditional pull, or `(offset + 1, None)` (not `(offset, None)`) otherwise. -/
theorem stream_next_characterization {τ : Type} (st : StreamState τ) (off : Nat) :
    streamNext st off =
      ((if st.buf.length < off
          then ⟨st.buf ++ st.src.take 500, st.src.drop 500⟩
          else st),
        (off + 1,
          (if st.buf.length < off then st.buf ++ st.src.take 500 else st.buf)[off]?))
    ∧ (streamNext st off).1.buf.length ≤ st.buf.length + 500
    ∧ ((streamNext st off).1.src = st.src.drop 500 ∨ (streamNext st off).1.src = st.src) := by
  refine ⟨?_, ?_, ?_⟩
  · by_cases h : st.buf.length < off <;> simp [streamNext, h, map_clone]
  · by_cases h : st.buf.length < off
    · simp [streamNext, h]
    · simp [streamNext, h]
  · by_cases h : st.buf.length < off <;> simp [streamNext, h]

/-- C3 counterexample: with an empty buffer and a source still holding `42`,
the buffer has fewer than `0 + 1` entries, yet `advance(0)` performs no pull
(the state is unchanged, the source still holds `42`) and returns no token;
and with an exhausted source, the miss is reported as `(offset + 1, None)`,
not `(offset, None)`. -/
theorem stream_pull_off_by_one_cex :
    streamNext (⟨[], [42]⟩ : StreamState Nat) 0 = (⟨[], [42]⟩, (1, none))
    ∧ (([] : List Nat).length < 0 + 1)
    ∧ streamNext (⟨[], []⟩ : StreamState Nat) 1 = (⟨[], []⟩, (2, none))
    ∧ ((2 : Nat), (none : Option Nat)) ≠ (1, none) := by
  refine ⟨rfl, by decide, by decide, by decide⟩

/-- C6: the text cursor's advance at a character-boundary offset strictly
before the end decodes the scalar starting there and returns
`(offset + scalar_byte_length, Some(scalar))`; at or beyond the end it returns
`(offset, None)`; concretely over `"ab"`: `advance(0) = (1, Some('a'))`,
`advance(1) = (2, Some('b'))`, `advance(2) = (2, None)`. -/
theorem str_advance_decodes_scalar :
    (∀ (s : List Char) (i : Nat) (h : i < s.length),
        strNext s (byteLen (s.take i)) =
          (byteLen (s.take i) + (s.get ⟨i, h⟩).utf8Size, some (s.get ⟨i, h⟩)))
    ∧ (∀ (s : List Char) (off : Nat), byteLen s ≤ off → strNext s off = (off, none))
    ∧ strNext ['a', 'b'] 0 = (1, some 'a')
    ∧ strNext ['a', 'b'] 1 = (2, some 'b')
    ∧ strNext ['a', 'b'] 2 = (2, none) := by
  refine ⟨strNext_valid, strNext_eof, by decide, by decide, by decide⟩

/-- Witness for the C6 theorem at concrete inputs. -/
theorem str_advance_decodes_scalar_witness :
    strNext ['a', 'b'] (byteLen (['a', 'b'].take 1)) =
      (byteLen (['a', 'b'].take 1) + Char.utf8Size 'b', some 'b')
    ∧ strNext ['a', 'b'] 5 = (5, none) :=
  ⟨str_advance_decodes_scalar.1 ['a', 'b'] 1 (by decide),
   str_advance_decodes_scalar.2.1 ['a', 'b'] 5 (by decide)⟩

/-- C7: `skip_while` reaches its final offset from the starting offset only by
advancing through tokens satisfying the predicate (so every skipped token
satisfied it), the token found at the final offset — if any — fails the
predicate (end-of-input otherwise), and if the predicate fails on the very
first token the offset is unchanged. -/
theorem skip_while_stops_at_first_failure {τ : Type} (c : Cursor τ) (f : τ → Bool)
    (off : Nat) :
    SkipReach c f off (skipWhile c f off)
    ∧ (∀ t, (c.next (skipWhile c f off)).2 = some t → f t = false)
    ∧ ((∀ t, (c.next off).2 = some t → f t = false) → skipWhile c f off = off) := by
  have h := skipWhileAux_spec c f (c.bound + 1 - off) off (le_refl _)
  unfold skipWhile
  refine ⟨h.1, h.2, ?_⟩
  intro hfail
  rcases hfu : c.bound + 1 - off with _ | k
  · rw [skipWhileAux]
  · rcases hn : c.next off with ⟨off', tok⟩
    cases tok with
    | none => exact skipWhileAux_eq_none c.next f k off off' hn
    | some t =>
      rw [skipWhileAux_eq_some c.next f k off off' t hn]
      have hft : f t = false := hfail t (by rw [hn])
      rw [hft]
      simp

/-- Witness for the C7 theorem on the array cursor over `[2, 4, 5, 6]` with an
evenness predicate: two tokens are skipped and the offset lands at 2, right
before the first failing token `5`. -/
theorem skip_while_stops_at_first_failure_witness :
    skipWhile (sliceCursor [2, 4, 5, 6]) (fun t => t % 2 == 0) 0 = 2
    ∧ SkipReach (sliceCursor [2, 4, 5, 6]) (fun t => t % 2 == 0) 0
        (skipWhile (sliceCursor [2, 4, 5, 6]) (fun t => t % 2 == 0) 0)
    ∧ (∀ t, ((sliceCursor [2, 4, 5, 6]).next
          (skipWhile (sliceCursor [2, 4, 5, 6]) (fun t => t % 2 == 0) 0)).2 = some t →
        (fun t => t % 2 == 0) t = false) := by
  have h := skip_while_stops_at_first_failure (sliceCursor [2, 4, 5, 6])
    (fun t => t % 2 == 0) 0
  exact ⟨by decide, h.1, h.2.1⟩

end ChumskyInput
